import Mathlib

/-!
Shallow embedding of `cool_animation.py`: the frame renderer `draw_wave` and
the color-escape helper `color`.  Floating-point trigonometry is modelled by
exact real arithmetic (`Real.sin`, `Real.cos`); Python `int(...)` truncation on
the non-negative channel values is `Int.floor`; Python string formatting is
explicit `String` concatenation.
-/

namespace CoolAnimation

noncomputable section

/-- Embeds `color(r, g, b, text)` from cool_animation.py: wraps `text` in a
24-bit foreground escape sequence followed by a reset sequence. -/
def color (r g b : ℤ) (text : String) : String :=
  "\x1b[38;2;" ++ toString r ++ ";" ++ toString g ++ ";" ++ toString b ++ "m"
    ++ text ++ "\x1b[0m"

/-- Grid width, `width = 60` in `draw_wave`. -/
def width : ℕ := 60

/-- Grid height, `height = 20` in `draw_wave`. -/
def height : ℕ := 20

/-- Embeds `wave1 = math.sin(x / 5.0 + frame / 10.0) * 5`. -/
def wave1 (frame x : ℕ) : ℝ := Real.sin ((x : ℝ) / 5 + (frame : ℝ) / 10) * 5

/-- Embeds `wave2 = math.sin(x / 3.0 - frame / 15.0) * 3`. -/
def wave2 (frame x : ℕ) : ℝ := Real.sin ((x : ℝ) / 3 - (frame : ℝ) / 15) * 3

/-- Embeds `wave3 = math.cos(x / 7.0 + frame / 8.0) * 4`. -/
def wave3 (frame x : ℕ) : ℝ := Real.cos ((x : ℝ) / 7 + (frame : ℝ) / 8) * 4

/-- Embeds `wave_y = height / 2 + wave1 + wave2 + wave3`. -/
def waveY (frame x : ℕ) : ℝ :=
  (height : ℝ) / 2 + wave1 frame x + wave2 frame x + wave3 frame x

/-- Embeds `distance = abs(y - wave_y)`. -/
def distance (frame x y : ℕ) : ℝ := |(y : ℝ) - waveY frame x|

/-- Embeds `hue = (x * 6 + frame * 2) % 360`. -/
def hue (frame x : ℕ) : ℕ := (x * 6 + frame * 2) % 360

/-- Embeds one color channel, `int((math.sin((hue + off) * 0.01745) + 1) * scale)`
with `off` 0, 120 or 240 and `scale` 127 or 63.  The argument of `int` is
non-negative, so truncation is `Int.floor`. -/
def chan (h off scale : ℕ) : ℤ :=
  ⌊(Real.sin (((h : ℝ) + (off : ℝ)) * 0.01745) + 1) * (scale : ℝ)⌋

/-- The cell produced by the `if distance < 0.5 / elif distance < 1.5 / else`
ladder of `draw_wave`, as a function of the distance and the hue. -/
def cellOfDist (d : ℝ) (h : ℕ) : String :=
  if d < 0.5 then
    color (chan h 0 127) (chan h 120 127) (chan h 240 127) "█"
  else if d < 1.5 then
    color (chan h 0 63) (chan h 120 63) (chan h 240 63) "▒"
  else " "

/-- The string appended to `line` for cell `(x, y)` of frame `frame`. -/
def cellStr (frame x y : ℕ) : String :=
  cellOfDist (distance frame x y) (hue frame x)

/-- The glyph (visible character) of a cell at distance `d` from the wave. -/
def glyphOfDist (d : ℝ) : Char :=
  if d < 0.5 then '█' else if d < 1.5 then '▒' else ' '

/-- Row `y` of a frame: the concatenation `line += ...` over `x in range(width)`. -/
def lineStr (frame y : ℕ) : String :=
  String.join ((List.range width).map fun x => cellStr frame x y)

/-- The `output` list of `draw_wave`: one string per row `y in range(height)`. -/
def waveLines (frame : ℕ) : List String :=
  (List.range height).map fun y => lineStr frame y

/-- Embeds Python `sep.join(pieces)`. -/
def joinWith (sep : String) : List String → String
  | [] => ""
  | [a] => a
  | a :: b :: rest => a ++ sep ++ joinWith sep (b :: rest)

/-- Embeds `draw_wave(frame)`: the rows joined by newlines. -/
def draw_wave (frame : ℕ) : String := joinWith "\n" (waveLines frame)

/-- State machine that removes ANSI color escape sequences: outside an escape
(`st = false`) an ESC character starts an escape, other characters are kept;
inside an escape (`st = true`) characters up to and including the terminating
`m` are dropped. -/
def stripAux : Bool → List Char → List Char
  | _, [] => []
  | true, c :: cs => if c = 'm' then stripAux false cs else stripAux true cs
  | false, c :: cs => if c = '\x1b' then stripAux true cs else c :: stripAux false cs

/-- The state of the escape-stripping machine after consuming a character list. -/
def escState : Bool → List Char → Bool
  | st, [] => st
  | true, c :: cs => escState (if c = 'm' then false else true) cs
  | false, c :: cs => escState (if c = '\x1b' then true else false) cs

/-- Removes ANSI color escape sequences from a string, leaving the visible
characters. -/
def stripAnsi (s : String) : String := ⟨stripAux false s.data⟩

/-- Helper: every channel value is non-negative (the argument of `int` is
`(sin θ + 1) * scale ≥ 0`). -/
theorem chan_nonneg (h off scale : ℕ) : 0 ≤ chan h off scale := by
  apply Int.floor_nonneg.mpr
  have h1 := Real.neg_one_le_sin (((h : ℝ) + (off : ℝ)) * 0.01745)
  have h2 : (0:ℝ) ≤ (scale : ℝ) := Nat.cast_nonneg scale
  nlinarith

/-- Helper: every channel value is at most `2 * scale`. -/
theorem chan_le (h off scale : ℕ) : chan h off scale ≤ 2 * (scale : ℤ) := by
  have h1 := Real.sin_le_one (((h : ℝ) + (off : ℝ)) * 0.01745)
  have h2 : (0:ℝ) ≤ (scale : ℝ) := Nat.cast_nonneg scale
  have h3 : (Real.sin (((h : ℝ) + (off : ℝ)) * 0.01745) + 1) * (scale : ℝ)
      ≤ ((2 * (scale : ℤ) : ℤ) : ℝ) := by
    push_cast
    nlinarith
  calc chan h off scale ≤ ⌊((2 * (scale : ℤ) : ℤ) : ℝ)⌋ := Int.floor_le_floor h3
    _ = 2 * (scale : ℤ) := Int.floor_intCast _

/-- Helper: the red channel at hue 0 with scale 127 is exactly 127. -/
theorem chan_zero_val : chan 0 0 127 = 127 := by
  have h0 : (((0:ℕ) : ℝ) + ((0:ℕ) : ℝ)) * 0.01745 = 0 := by push_cast; ring
  unfold chan
  rw [h0, Real.sin_zero, zero_add, one_mul, Int.floor_natCast]
  norm_num

/-- Helper: at frame 0, column 0 the wave height is exactly 14
(`sin 0 = 0`, `cos 0 = 1`, so `wave_y = 10 + 0 + 0 + 4`). -/
theorem waveY_zero_zero : waveY 0 0 = 14 := by
  unfold waveY wave1 wave2 wave3 height
  norm_num

/-- C1: for every frame `f ≥ 0` and column `x ∈ [0, 60)`, the wave height is
`wave_y = H/2 + wave1 + wave2 + wave3` with `H = 20`, where
`wave1 = sin(x/5 + f/10) * 5`, `wave2 = sin(x/3 - f/15) * 3` (a sine term of
`x/3.0` and `f/15.0` with amplitude 3) and `wave3 = cos(x/7 + f/8) * 4`, and
each cell's branch is decided by `distance = |y - wave_y|`. -/
theorem wave_formula (f x : ℕ) (hx : x < 60) :
    waveY f x = (20 : ℝ) / 2 + wave1 f x + wave2 f x + wave3 f x ∧
    wave1 f x = Real.sin ((x : ℝ) / 5 + (f : ℝ) / 10) * 5 ∧
    wave2 f x = Real.sin ((x : ℝ) / 3 - (f : ℝ) / 15) * 3 ∧
    wave3 f x = Real.cos ((x : ℝ) / 7 + (f : ℝ) / 8) * 4 ∧
    ∀ y : ℕ, cellStr f x y = cellOfDist |(y : ℝ) - waveY f x| (hue f x) := by
  refine ⟨?_, rfl, rfl, rfl, fun y => rfl⟩
  unfold waveY height
  norm_num

/-- Witness for C1 at frame 0, column 0. -/
theorem wave_formula_witness :
    waveY 0 0 = (20 : ℝ) / 2 + wave1 0 0 + wave2 0 0 + wave3 0 0 ∧
    wave1 0 0 = Real.sin (((0:ℕ) : ℝ) / 5 + ((0:ℕ) : ℝ) / 10) * 5 ∧
    wave2 0 0 = Real.sin (((0:ℕ) : ℝ) / 3 - ((0:ℕ) : ℝ) / 15) * 3 ∧
    wave3 0 0 = Real.cos (((0:ℕ) : ℝ) / 7 + ((0:ℕ) : ℝ) / 8) * 4 ∧
    ∀ y : ℕ, cellStr 0 0 y = cellOfDist |(y : ℝ) - waveY 0 0| (hue 0 0) :=
  wave_formula 0 0 (by norm_num)

/-- C4: for every hue, phase offset and scale, the channel value is an integer
in `[0, 2 * scale]`, so no clamping is needed. -/
theorem chan_in_range (h off scale : ℕ) :
    0 ≤ chan h off scale ∧ chan h off scale ≤ 2 * (scale : ℤ) :=
  ⟨chan_nonneg h off scale, chan_le h off scale⟩

/-- C5: the renderer is deterministic — it is a pure function of the frame
counter, so equal inputs give identical output strings. -/
theorem draw_wave_deterministic (f₁ f₂ : ℕ) (h : f₁ = f₂) :
    draw_wave f₁ = draw_wave f₂ := by rw [h]

/-- Witness for C5 at frame 0. -/
theorem draw_wave_deterministic_witness : draw_wave 0 = draw_wave 0 :=
  draw_wave_deterministic 0 0 rfl

/-- C8: at hue 0 with phase offset 0 and scale 127 the red channel equals the
direct computation `int((sin 0 + 1) * 127)`, which is exactly 127. -/
theorem chan_at_hue_zero :
    chan 0 0 127 = ⌊(Real.sin 0 + 1) * ((127:ℕ) : ℝ)⌋ ∧ chan 0 0 127 = 127 := by
  have h0 : (((0:ℕ) : ℝ) + ((0:ℕ) : ℝ)) * 0.01745 = 0 := by push_cast; ring
  constructor
  · unfold chan
    rw [h0]
  · exact chan_zero_val

/-- C3: a cell at distance below 0.5 is the solid block `█` colored with hue
`(x*6 + f*2) % 360` at scale 127; at distance in `[0.5, 1.5)` it is the
shading character `▒` with the same hue at scale 63; at distance `≥ 1.5` it is
a single uncolored space. -/
theorem cell_branch_rendering (f x y : ℕ) :
    (distance f x y < 0.5 →
      cellStr f x y =
        color (chan (hue f x) 0 127) (chan (hue f x) 120 127) (chan (hue f x) 240 127) "█") ∧
    (0.5 ≤ distance f x y → distance f x y < 1.5 →
      cellStr f x y =
        color (chan (hue f x) 0 63) (chan (hue f x) 120 63) (chan (hue f x) 240 63) "▒") ∧
    (1.5 ≤ distance f x y → cellStr f x y = " ") := by
  unfold cellStr cellOfDist
  refine ⟨fun h1 => by rw [if_pos h1], fun h1 h2 => ?_, fun h1 => ?_⟩
  · rw [if_neg (not_lt.mpr h1), if_pos h2]
  · rw [if_neg (not_lt.mpr (le_trans (by norm_num) h1)), if_neg (not_lt.mpr h1)]

/-- Witness for C3 at frame 0, column 0, rows 14 (solid), 13 (fade), 0 (blank). -/
theorem cell_branch_rendering_witness :
    (distance 0 0 14 < 0.5 ∧
      cellStr 0 0 14 =
        color (chan (hue 0 0) 0 127) (chan (hue 0 0) 120 127) (chan (hue 0 0) 240 127) "█") ∧
    ((0.5 ≤ distance 0 0 13 ∧ distance 0 0 13 < 1.5) ∧
      cellStr 0 0 13 =
        color (chan (hue 0 0) 0 63) (chan (hue 0 0) 120 63) (chan (hue 0 0) 240 63) "▒") ∧
    (1.5 ≤ distance 0 0 0 ∧ cellStr 0 0 0 = " ") := by
  have h14 : distance 0 0 14 < 0.5 := by
    unfold distance
    rw [waveY_zero_zero]
    norm_num
  have h13a : (0.5:ℝ) ≤ distance 0 0 13 := by
    unfold distance
    rw [waveY_zero_zero, show ((13:ℕ):ℝ) - 14 = -1 by norm_num, abs_neg, abs_one]
    norm_num
  have h13b : distance 0 0 13 < 1.5 := by
    unfold distance
    rw [waveY_zero_zero, show ((13:ℕ):ℝ) - 14 = -1 by norm_num, abs_neg, abs_one]
    norm_num
  have h0 : (1.5:ℝ) ≤ distance 0 0 0 := by
    unfold distance
    rw [waveY_zero_zero, show ((0:ℕ):ℝ) - 14 = -14 by norm_num, abs_neg]
    rw [show |(14:ℝ)| = 14 from abs_of_nonneg (by norm_num)]
    norm_num
  exact ⟨⟨h14, (cell_branch_rendering 0 0 14).1 h14⟩,
         ⟨⟨h13a, h13b⟩, (cell_branch_rendering 0 0 13).2.1 h13a h13b⟩,
         ⟨h0, (cell_branch_rendering 0 0 0).2.2 h0⟩⟩

/-- Helper: `Nat.digitChar` of a value below 10 is a decimal digit. -/
theorem digitChar_isDigit {n : ℕ} (hn : n < 10) : (Nat.digitChar n).isDigit = true := by
  interval_cases n <;> decide

/-- Helper: in base 10, `Nat.toDigitsCore` produces only decimal digits when
the accumulator holds only decimal digits. -/
theorem toDigitsCore_isDigit :
    ∀ (fuel n : ℕ) (ds : List Char), (∀ c ∈ ds, c.isDigit = true) →
      ∀ c ∈ Nat.toDigitsCore 10 fuel n ds, c.isDigit = true := by
  intro fuel
  induction fuel with
  | zero =>
    intro n ds hds c hc
    exact hds c (by simpa [Nat.toDigitsCore] using hc)
  | succ fuel ih =>
    intro n ds hds c hc
    simp only [Nat.toDigitsCore] at hc
    by_cases hnb : n / 10 = 0
    · rw [if_pos hnb] at hc
      rcases List.mem_cons.mp hc with h | h
      · exact h ▸ digitChar_isDigit (Nat.mod_lt _ (by norm_num))
      · exact hds c h
    · rw [if_neg hnb] at hc
      refine ih (n / 10) _ ?_ c hc
      intro d hd
      rcases List.mem_cons.mp hd with h | h
      · exact h ▸ digitChar_isDigit (Nat.mod_lt _ (by norm_num))
      · exact hds d h

/-- Helper: every character of `Nat.repr n` is a decimal digit. -/
theorem repr_isDigit (n : ℕ) : ∀ c ∈ (Nat.repr n).data, c.isDigit = true := by
  intro c hc
  have hd : (Nat.repr n).data = Nat.toDigits 10 n := rfl
  rw [hd, Nat.toDigits] at hc
  exact toDigitsCore_isDigit (n + 1) n [] (by intro d hd2; cases hd2) c hc

/-- Helper: `toString` of a non-negative integer consists only of decimal
digits (no sign character). -/
theorem toString_int_isDigit (r : ℤ) (hr : 0 ≤ r) :
    ∀ c ∈ (toString r).data, c.isDigit = true := by
  obtain ⟨n, rfl⟩ := Int.eq_ofNat_of_zero_le hr
  exact repr_isDigit n

/-- Helper: a decimal digit is none of the structural characters of the
rendered cells. -/
theorem isDigit_ne {c : Char} (h : c.isDigit = true) :
    c ≠ 'm' ∧ c ≠ '\x1b' ∧ c ≠ '\n' ∧ c ≠ ' ' ∧ c ≠ '█' ∧ c ≠ '▒' := by
  refine ⟨?_, ?_, ?_, ?_, ?_, ?_⟩ <;> rintro rfl <;> revert h <;> decide

/-- Helper: consuming a concatenation updates the escape state compositionally. -/
theorem escState_append (a : List Char) :
    ∀ (st : Bool) (b : List Char), escState st (a ++ b) = escState (escState st a) b := by
  induction a with
  | nil => intro st b; simp [escState]
  | cons c cs ih =>
    intro st b
    cases st
    · simp only [List.cons_append, escState]
      exact ih _ b
    · simp only [List.cons_append, escState]
      exact ih _ b

/-- Helper: stripping a concatenation is the concatenation of the strips,
continuing in the state reached after the first part. -/
theorem stripAux_append (a : List Char) :
    ∀ (st : Bool) (b : List Char),
      stripAux st (a ++ b) = stripAux st a ++ stripAux (escState st a) b := by
  induction a with
  | nil => intro st b; simp [stripAux, escState]
  | cons c cs ih =>
    intro st b
    cases st
    · by_cases hc : c = '\x1b' <;>
        simp only [List.cons_append, stripAux, escState, hc, if_true, if_false,
          reduceIte, List.cons.injEq, true_and] <;>
        exact ih _ b
    · by_cases hc : c = 'm' <;>
        simp only [List.cons_append, stripAux, escState, hc, if_true, if_false,
          reduceIte, List.cons.injEq, true_and] <;>
        exact ih _ b

/-- Helper: inside an escape, characters other than `m` are all dropped and
the machine stays inside the escape. -/
theorem stripAux_skip : ∀ l : List Char, (∀ c ∈ l, c ≠ 'm') →
    stripAux true l = [] ∧ escState true l = true := by
  intro l
  induction l with
  | nil => intro _; exact ⟨rfl, rfl⟩
  | cons c cs ih =>
    intro hl
    have hc : c ≠ 'm' := hl c (List.mem_cons_self c cs)
    have ih2 := ih fun d hd => hl d (List.mem_cons_of_mem c hd)
    simp [stripAux, escState, hc, ih2.1, ih2.2]

/-- Helper: outside an escape, characters other than ESC are all kept and the
machine stays outside. -/
theorem stripAux_plain : ∀ l : List Char, (∀ c ∈ l, c ≠ '\x1b') →
    stripAux false l = l ∧ escState false l = false := by
  intro l
  induction l with
  | nil => intro _; exact ⟨rfl, rfl⟩
  | cons c cs ih =>
    intro hl
    have hc : c ≠ '\x1b' := hl c (List.mem_cons_self c cs)
    have ih2 := ih fun d hd => hl d (List.mem_cons_of_mem c hd)
    simp [stripAux, escState, hc, ih2.1, ih2.2]

/-- Helper: an ESC character moves the machine into an escape. -/
theorem stripAux_esc (l : List Char) : stripAux false ('\x1b' :: l) = stripAux true l := by
  simp [stripAux]

/-- Helper: escape-state step on ESC. -/
theorem escState_esc (l : List Char) : escState false ('\x1b' :: l) = escState true l := by
  simp [escState]

/-- Helper: an `m` character terminates an escape. -/
theorem stripAux_m (l : List Char) : stripAux true ('m' :: l) = stripAux false l := by
  simp [stripAux]

/-- Helper: escape-state step on `m`. -/
theorem escState_m (l : List Char) : escState true ('m' :: l) = escState false l := by
  simp [escState]

/-- Helper: the character list of a color-wrapped string, right-associated. -/
theorem color_data (r g b : ℤ) (t : String) :
    (color r g b t).data =
      "\x1b[38;2;".data ++ ((toString r).data ++ (";".data ++ ((toString g).data
        ++ (";".data ++ ((toString b).data ++ ("m".data ++ (t.data ++ "\x1b[0m".data))))))) := by
  simp [color, List.append_assoc]

/-- Helper: stripping a color-wrapped string with non-negative channels leaves
exactly the wrapped text, and ends outside any escape. -/
theorem strip_color (r g b : ℤ) (hr : 0 ≤ r) (hg : 0 ≤ g) (hb : 0 ≤ b)
    (t : String) (ht : ∀ c ∈ t.data, c ≠ '\x1b') :
    stripAux false (color r g b t).data = t.data ∧
    escState false (color r g b t).data = false := by
  have hdata : (color r g b t).data
      = '\x1b' :: (("[38;2;".data ++ ((toString r).data ++ ([';'] ++ ((toString g).data
          ++ ([';'] ++ (toString b).data))))) ++ ('m' :: (t.data ++ "\x1b[0m".data))) := by
    rw [color_data]
    simp only [show "\x1b[38;2;".data = ['\x1b', '[', '3', '8', ';', '2', ';'] from rfl,
      show "[38;2;".data = ['[', '3', '8', ';', '2', ';'] from rfl,
      show ";".data = [';'] from rfl, show "m".data = ['m'] from rfl,
      List.cons_append, List.append_assoc, List.singleton_append, List.nil_append]
  have hmid : ∀ c ∈ ("[38;2;".data ++ ((toString r).data ++ ([';'] ++ ((toString g).data
      ++ ([';'] ++ (toString b).data))))), c ≠ 'm' := by
    intro c hc
    rcases List.mem_append.mp hc with h | h
    · simp only [show "[38;2;".data = ['[', '3', '8', ';', '2', ';'] from rfl,
        List.mem_cons, List.not_mem_nil, or_false] at h
      rcases h with rfl | rfl | rfl | rfl | rfl | rfl <;> decide
    rcases List.mem_append.mp h with h | h
    · exact (isDigit_ne (toString_int_isDigit r hr c h)).1
    rcases List.mem_append.mp h with h | h
    · simp only [List.mem_singleton] at h
      subst h; decide
    rcases List.mem_append.mp h with h | h
    · exact (isDigit_ne (toString_int_isDigit g hg c h)).1
    rcases List.mem_append.mp h with h | h
    · simp only [List.mem_singleton] at h
      subst h; decide
    · exact (isDigit_ne (toString_int_isDigit b hb c h)).1
  have htail1 : stripAux false ("\x1b[0m".data) = [] := by decide
  have htail2 : escState false ("\x1b[0m".data) = false := by decide
  constructor
  · rw [hdata, stripAux_esc, stripAux_append, (stripAux_skip _ hmid).1,
      (stripAux_skip _ hmid).2, List.nil_append, stripAux_m, stripAux_append,
      (stripAux_plain _ ht).1, (stripAux_plain _ ht).2, htail1, List.append_nil]
  · rw [hdata, escState_esc, escState_append, (stripAux_skip _ hmid).2, escState_m,
      escState_append, (stripAux_plain _ ht).2, htail2]

/-- Helper: stripping one rendered cell leaves exactly its glyph, ending
outside any escape. -/
theorem cell_strip (f x y : ℕ) :
    stripAux false (cellStr f x y).data = [glyphOfDist (distance f x y)] ∧
    escState false (cellStr f x y).data = false := by
  unfold cellStr cellOfDist glyphOfDist
  by_cases h1 : distance f x y < 0.5
  · rw [if_pos h1, if_pos h1]
    have := strip_color (chan (hue f x) 0 127) (chan (hue f x) 120 127)
      (chan (hue f x) 240 127) (chan_nonneg _ _ _) (chan_nonneg _ _ _)
      (chan_nonneg _ _ _) "█" (by decide)
    exact ⟨this.1, this.2⟩
  · rw [if_neg h1, if_neg h1]
    by_cases h2 : distance f x y < 1.5
    · rw [if_pos h2, if_pos h2]
      have := strip_color (chan (hue f x) 0 63) (chan (hue f x) 120 63)
        (chan (hue f x) 240 63) (chan_nonneg _ _ _) (chan_nonneg _ _ _)
        (chan_nonneg _ _ _) "▒" (by decide)
      exact ⟨this.1, this.2⟩
    · rw [if_neg h2, if_neg h2]
      exact ⟨by decide, by decide⟩

/-- Helper: the character list of a left fold of string appends. -/
theorem foldl_append_data : ∀ (l : List String) (acc : String),
    (l.foldl (· ++ ·) acc).data = acc.data ++ (l.map String.data).join := by
  intro l
  induction l with
  | nil => intro acc; simp
  | cons s rest ih =>
    intro acc
    simp only [List.foldl_cons, List.map_cons, List.join_cons]
    rw [ih (acc ++ s), String.data_append, List.append_assoc]

/-- Helper: the character list of `String.join`. -/
theorem join_data (l : List String) : (String.join l).data = (l.map String.data).join := by
  have h : String.join l = l.foldl (· ++ ·) "" := rfl
  rw [h, foldl_append_data]
  rfl

/-- Helper: stripping a concatenation of rendered cells leaves exactly their
glyphs, one character per cell. -/
theorem strip_cells (f y : ℕ) : ∀ xs : List ℕ,
    stripAux false ((xs.map fun x => (cellStr f x y).data).join)
      = xs.map (fun x => glyphOfDist (distance f x y)) ∧
    escState false ((xs.map fun x => (cellStr f x y).data).join) = false := by
  intro xs
  induction xs with
  | nil => exact ⟨rfl, rfl⟩
  | cons x rest ih =>
    obtain ⟨ih1, ih2⟩ := ih
    obtain ⟨c1, c2⟩ := cell_strip f x y
    simp only [List.map_cons, List.join_cons]
    constructor
    · rw [stripAux_append, c1, c2, ih1]
      rfl
    · rw [escState_append, c2, ih2]

/-- Helper: stripping one grid row leaves its 60 glyphs. -/
theorem strip_lineStr (f y : ℕ) :
    stripAux false (lineStr f y).data
      = (List.range width).map (fun x => glyphOfDist (distance f x y)) ∧
    escState false (lineStr f y).data = false := by
  unfold lineStr
  rw [join_data, List.map_map]
  exact strip_cells f y (List.range width)

/-- C7: every line of a rendered frame has exactly 60 visible characters once
the ANSI color escape sequences are stripped. -/
theorem line_visible_width (f : ℕ) (s : String) (hs : s ∈ waveLines f) :
    (stripAnsi s).length = 60 := by
  obtain ⟨y, hy, rfl⟩ := List.mem_map.mp hs
  have h : (stripAnsi (lineStr f y)).length = (stripAux false (lineStr f y).data).length := rfl
  rw [h, (strip_lineStr f y).1]
  simp [width]

/-- Witness for C7: the first line of frame 0. -/
theorem line_visible_width_witness : (stripAnsi (lineStr 0 0)).length = 60 :=
  line_visible_width 0 (lineStr 0 0)
    (List.mem_map_of_mem _ (by decide : (0 : ℕ) ∈ List.range height))

/-- C2: branch selection is strict — the renderer picks the cell from the
distance alone, a cell at distance exactly 0.5 is a fade cell (not a solid
cell), and a cell at distance exactly 1.5 is blank (not a fade cell). -/
theorem boundary_strict :
    (∀ f x y : ℕ, cellStr f x y = cellOfDist (distance f x y) (hue f x)) ∧
    (∀ (d : ℝ) (h : ℕ),
      (d = 0.5 →
        cellOfDist d h = color (chan h 0 63) (chan h 120 63) (chan h 240 63) "▒" ∧
        cellOfDist d h ≠ color (chan h 0 127) (chan h 120 127) (chan h 240 127) "█") ∧
      (d = 1.5 →
        cellOfDist d h = " " ∧
        cellOfDist d h ≠ color (chan h 0 63) (chan h 120 63) (chan h 240 63) "▒")) := by
  refine ⟨fun f x y => rfl, fun d h => ⟨fun hd => ?_, fun hd => ?_⟩⟩
  · subst hd
    have he : cellOfDist (0.5 : ℝ) h = color (chan h 0 63) (chan h 120 63) (chan h 240 63) "▒" := by
      unfold cellOfDist
      rw [if_neg (lt_irrefl _), if_pos (by norm_num)]
    refine ⟨he, ?_⟩
    rw [he]
    intro hcontra
    have h1 := (strip_color _ _ _ (chan_nonneg h 0 63) (chan_nonneg h 120 63)
      (chan_nonneg h 240 63) "▒" (by decide)).1
    have h2 := (strip_color _ _ _ (chan_nonneg h 0 127) (chan_nonneg h 120 127)
      (chan_nonneg h 240 127) "█" (by decide)).1
    rw [hcontra] at h1
    rw [h2] at h1
    exact absurd h1 (by decide)
  · subst hd
    have he : cellOfDist (1.5 : ℝ) h = " " := by
      unfold cellOfDist
      rw [if_neg (by norm_num), if_neg (lt_irrefl _)]
    refine ⟨he, ?_⟩
    rw [he]
    intro hcontra
    have h1 := (strip_color _ _ _ (chan_nonneg h 0 63) (chan_nonneg h 120 63)
      (chan_nonneg h 240 63) "▒" (by decide)).1
    rw [← hcontra] at h1
    exact absurd h1 (by decide)

/-- Witness for C2 at hue 0: distance exactly 0.5 gives the fade cell,
distance exactly 1.5 gives the blank cell. -/
theorem boundary_strict_witness :
    cellOfDist 0.5 0 = color (chan 0 0 63) (chan 0 120 63) (chan 0 240 63) "▒" ∧
    cellOfDist 1.5 0 = " " :=
  ⟨((boundary_strict.2 0.5 0).1 rfl).1, ((boundary_strict.2 1.5 0).2 rfl).1⟩

/-- Helper: a color-wrapped string with non-negative channels and
newline-free text contains no newline. -/
theorem color_no_nl (r g b : ℤ) (hr : 0 ≤ r) (hg : 0 ≤ g) (hb : 0 ≤ b)
    (t : String) (ht : '\n' ∉ t.data) : '\n' ∉ (color r g b t).data := by
  rw [color_data]
  intro hc
  rcases List.mem_append.mp hc with h | h
  · revert h; decide
  rcases List.mem_append.mp h with h | h
  · exact absurd (toString_int_isDigit r hr _ h) (by decide)
  rcases List.mem_append.mp h with h | h
  · revert h; decide
  rcases List.mem_append.mp h with h | h
  · exact absurd (toString_int_isDigit g hg _ h) (by decide)
  rcases List.mem_append.mp h with h | h
  · revert h; decide
  rcases List.mem_append.mp h with h | h
  · exact absurd (toString_int_isDigit b hb _ h) (by decide)
  rcases List.mem_append.mp h with h | h
  · revert h; decide
  rcases List.mem_append.mp h with h | h
  · exact ht h
  · revert h; decide

/-- Helper: no rendered cell contains a newline. -/
theorem cell_no_nl (f x y : ℕ) : '\n' ∉ (cellStr f x y).data := by
  unfold cellStr cellOfDist
  by_cases h1 : distance f x y < 0.5
  · rw [if_pos h1]
    exact color_no_nl _ _ _ (chan_nonneg _ _ _) (chan_nonneg _ _ _) (chan_nonneg _ _ _)
      "█" (by decide)
  · rw [if_neg h1]
    by_cases h2 : distance f x y < 1.5
    · rw [if_pos h2]
      exact color_no_nl _ _ _ (chan_nonneg _ _ _) (chan_nonneg _ _ _) (chan_nonneg _ _ _)
        "▒" (by decide)
    · rw [if_neg h2]
      decide

/-- Helper: no rendered row contains a newline. -/
theorem line_no_nl (f y : ℕ) : '\n' ∉ (lineStr f y).data := by
  unfold lineStr
  rw [join_data]
  intro hc
  rw [List.mem_flatten] at hc
  obtain ⟨l, hl, hcl⟩ := hc
  rw [List.map_map, List.mem_map] at hl
  obtain ⟨x, hx, rfl⟩ := hl
  exact cell_no_nl f x y hcl

/-- Helper: joining newline-free strings with the newline separator puts
exactly one newline between consecutive pieces. -/
theorem count_nl_joinWith : ∀ l : List String, (∀ s ∈ l, '\n' ∉ s.data) →
    (joinWith "\n" l).data.count '\n' = l.length - 1 := by
  intro l
  induction l with
  | nil => intro _; rfl
  | cons a rest ih =>
    intro hl
    cases rest with
    | nil =>
      simp only [joinWith]
      rw [List.count_eq_zero.mpr (hl a (List.mem_cons_self a []))]
      rfl
    | cons b rest2 =>
      simp only [joinWith]
      rw [String.data_append, String.data_append, List.count_append, List.count_append]
      rw [List.count_eq_zero.mpr (hl a (List.mem_cons_self a _))]
      rw [ih fun s hs => hl s (List.mem_cons_of_mem a hs)]
      simp only [List.length_cons]
      rw [show ("\n" : String).data.count '\n' = 1 from rfl]
      omega

/-- C6: the output of the renderer is exactly 20 lines joined by newlines —
the row list has length 20, the output is that list joined with the newline
separator, and the output string contains exactly 19 newline characters. -/
theorem draw_wave_twenty_lines (f : ℕ) :
    (waveLines f).length = 20 ∧
    draw_wave f = joinWith "\n" (waveLines f) ∧
    (draw_wave f).data.count '\n' = 19 := by
  have hnl : ∀ s ∈ waveLines f, '\n' ∉ s.data := by
    intro s hs
    obtain ⟨y, hy, rfl⟩ := List.mem_map.mp hs
    exact line_no_nl f y
  have hlen : (waveLines f).length = 20 := by
    unfold waveLines height
    simp
  refine ⟨hlen, rfl, ?_⟩
  unfold draw_wave
  rw [count_nl_joinWith _ hnl, hlen]

/-- Helper: the visible character of a rendered cell is its glyph. -/
theorem stripAnsi_cell (f x y : ℕ) :
    stripAnsi (cellStr f x y) = String.singleton (glyphOfDist (distance f x y)) := by
  unfold stripAnsi
  rw [(cell_strip f x y).1]
  rfl

/-- Helper: two singleton strings are equal exactly when their characters are. -/
theorem singleton_eq (g c : Char) : String.singleton g = String.singleton c ↔ g = c := by
  rw [String.ext_iff]
  show [g] = [c] ↔ g = c
  simp

/-- Helper: the glyph is the solid block exactly when the distance is below 0.5. -/
theorem glyph_solid_iff (d : ℝ) : glyphOfDist d = '█' ↔ d < 0.5 := by
  unfold glyphOfDist
  constructor
  · intro h
    by_contra hn
    rw [if_neg hn] at h
    by_cases h2 : d < 1.5
    · rw [if_pos h2] at h
      exact absurd h (by decide)
    · rw [if_neg h2] at h
      exact absurd h (by decide)
  · intro h
    rw [if_pos h]

/-- Helper: the glyph is non-blank exactly when the distance is below 1.5. -/
theorem glyph_nonblank_iff (d : ℝ) : glyphOfDist d ≠ ' ' ↔ d < 1.5 := by
  unfold glyphOfDist
  constructor
  · intro h
    by_contra hn
    have h05 : ¬ d < 0.5 := fun hh => hn (lt_trans hh (by norm_num))
    rw [if_neg h05, if_neg hn] at h
    exact h rfl
  · intro h
    by_cases h1 : d < 0.5
    · rw [if_pos h1]
      decide
    · rw [if_neg h1, if_pos h]
      decide

/-- Helper: at most one row of a column is within distance 0.5 of the wave. -/
theorem solid_card (f x : ℕ) :
    ((Finset.range 20).filter fun y => stripAnsi (cellStr f x y) = "█").card ≤ 1 := by
  apply Finset.card_le_one.mpr
  intro a ha b hb
  simp only [Finset.mem_filter, Finset.mem_range] at ha hb
  have hga : glyphOfDist (distance f x a) = '█' := by
    have h := ha.2
    rw [stripAnsi_cell] at h
    exact (singleton_eq _ '█').mp h
  have hgb : glyphOfDist (distance f x b) = '█' := by
    have h := hb.2
    rw [stripAnsi_cell] at h
    exact (singleton_eq _ '█').mp h
  rw [glyph_solid_iff] at hga hgb
  unfold distance at hga hgb
  rw [abs_lt] at hga hgb
  have h1 : ((a : ℤ) : ℝ) - ((b : ℤ) : ℝ) < 1 := by push_cast; linarith [hga.1, hga.2, hgb.1, hgb.2]
  have h2 : ((b : ℤ) : ℝ) - ((a : ℤ) : ℝ) < 1 := by push_cast; linarith [hga.1, hga.2, hgb.1, hgb.2]
  have h3 : (a : ℤ) - (b : ℤ) < 1 := by exact_mod_cast h1
  have h4 : (b : ℤ) - (a : ℤ) < 1 := by exact_mod_cast h2
  omega

/-- Helper: at most three rows of a column are within distance 1.5 of the wave. -/
theorem nonblank_card (f x : ℕ) :
    ((Finset.range 20).filter fun y => stripAnsi (cellStr f x y) ≠ " ").card ≤ 3 := by
  have hmap : ∀ y ∈ (Finset.range 20).filter (fun y => stripAnsi (cellStr f x y) ≠ " "),
      (y : ℤ) ∈ Finset.Icc ⌈waveY f x - 1.5⌉ (⌈waveY f x - 1.5⌉ + 2) := by
    intro y hy
    simp only [Finset.mem_filter, Finset.mem_range] at hy
    have hg : glyphOfDist (distance f x y) ≠ ' ' := by
      intro hsp
      apply hy.2
      rw [stripAnsi_cell, hsp]
      rfl
    rw [glyph_nonblank_iff] at hg
    unfold distance at hg
    rw [abs_lt] at hg
    have hceil : waveY f x - 1.5 ≤ (⌈waveY f x - 1.5⌉ : ℝ) := Int.le_ceil _
    rw [Finset.mem_Icc]
    constructor
    · rw [Int.ceil_le]
      push_cast
      linarith [hg.1, hg.2]
    · have h5 : ((y : ℤ) : ℝ) < (⌈waveY f x - 1.5⌉ : ℝ) + 3 := by push_cast; linarith [hg.1, hg.2]
      have h6 : (y : ℤ) < ⌈waveY f x - 1.5⌉ + 3 := by exact_mod_cast h5
      omega
  have hinj : Set.InjOn (fun y : ℕ => (y : ℤ))
      ((Finset.range 20).filter fun y => stripAnsi (cellStr f x y) ≠ " ") := by
    intro a _ b _ h
    have h2 : (a : ℤ) = (b : ℤ) := h
    exact_mod_cast h2
  have hcard := Finset.card_le_card_of_injOn (fun y : ℕ => (y : ℤ)) hmap hinj
  have h3 : (Finset.Icc ⌈waveY f x - 1.5⌉ (⌈waveY f x - 1.5⌉ + 2)).card = 3 := by
    rw [Int.card_Icc]
    rw [show ⌈waveY f x - 1.5⌉ + 2 + 1 - ⌈waveY f x - 1.5⌉ = 3 by ring]
    rfl
  rw [h3] at hcard
  exact hcard

/-- C10: within one frame, every row of a column uses the same wave height
`wave_y`, so the column has at most one solid block, at most three non-blank
glyphs, and every other cell is a blank space. -/
theorem column_sparsity (f x : ℕ) (hx : x < 60) :
    (∀ y : ℕ, cellStr f x y = cellOfDist |(y : ℝ) - waveY f x| (hue f x)) ∧
    ((Finset.range 20).filter fun y => stripAnsi (cellStr f x y) = "█").card ≤ 1 ∧
    ((Finset.range 20).filter fun y => stripAnsi (cellStr f x y) ≠ " ").card ≤ 3 ∧
    (∀ y : ℕ, stripAnsi (cellStr f x y) ≠ "█" → stripAnsi (cellStr f x y) ≠ "▒" →
      cellStr f x y = " ") := by
  refine ⟨fun y => rfl, solid_card f x, nonblank_card f x, fun y hsolid hfade => ?_⟩
  rw [stripAnsi_cell] at hsolid hfade
  have h1 : ¬ distance f x y < 0.5 := by
    intro h
    apply hsolid
    show String.singleton (glyphOfDist (distance f x y)) = String.singleton '█'
    rw [(glyph_solid_iff _).mpr h]
  have h2 : ¬ distance f x y < 1.5 := by
    intro h
    apply hfade
    show String.singleton (glyphOfDist (distance f x y)) = String.singleton '▒'
    unfold glyphOfDist
    rw [if_neg h1, if_pos h]
  unfold cellStr cellOfDist
  rw [if_neg h1, if_neg h2]

/-- Witness for C10 at frame 0, column 0. -/
theorem column_sparsity_witness :
    (∀ y : ℕ, cellStr 0 0 y = cellOfDist |(y : ℝ) - waveY 0 0| (hue 0 0)) ∧
    ((Finset.range 20).filter fun y => stripAnsi (cellStr 0 0 y) = "█").card ≤ 1 ∧
    ((Finset.range 20).filter fun y => stripAnsi (cellStr 0 0 y) ≠ " ").card ≤ 3 ∧
    (∀ y : ℕ, stripAnsi (cellStr 0 0 y) ≠ "█" → stripAnsi (cellStr 0 0 y) ≠ "▒" →
      cellStr 0 0 y = " ") :=
  column_sparsity 0 0 (by norm_num)

/-- Helper: splitting a concatenation at the first newline is unambiguous when
the left parts are newline-free. -/
theorem chunk_eq : ∀ (a b r s : List Char), '\n' ∉ a → '\n' ∉ b →
    a ++ '\n' :: r = b ++ '\n' :: s → a = b ∧ r = s := by
  intro a
  induction a with
  | nil =>
    intro b r s _ hb h
    cases b with
    | nil =>
      refine ⟨rfl, ?_⟩
      rw [List.nil_append, List.nil_append] at h
      injection h
    | cons d ds =>
      exfalso
      rw [List.nil_append, List.cons_append] at h
      injection h with h1 h2
      apply hb
      rw [← h1]
      exact List.mem_cons_self '\n' _
  | cons c cs ih =>
    intro b r s ha hb h
    cases b with
    | nil =>
      exfalso
      rw [List.nil_append, List.cons_append] at h
      injection h with h1 h2
      apply ha
      rw [h1]
      exact List.mem_cons_self '\n' _
    | cons d ds =>
      rw [List.cons_append, List.cons_append] at h
      injection h with h1 h2
      have ih2 := ih ds r s (fun hm => ha (List.mem_cons_of_mem c hm))
        (fun hm => hb (List.mem_cons_of_mem d hm)) h2
      exact ⟨by rw [h1, ih2.1], ih2.2⟩

/-- Helper: joining newline-free strings with newline separators is injective
on lists of equal length. -/
theorem joinWith_nl_inj : ∀ (l₁ l₂ : List String),
    (∀ s ∈ l₁, '\n' ∉ s.data) → (∀ s ∈ l₂, '\n' ∉ s.data) →
    l₁.length = l₂.length → joinWith "\n" l₁ = joinWith "\n" l₂ → l₁ = l₂ := by
  intro l₁
  induction l₁ with
  | nil =>
    intro l₂ _ _ hlen _
    cases l₂ with
    | nil => rfl
    | cons b t2 => simp at hlen
  | cons a t ih =>
    intro l₂ h1 h2 hlen hj
    cases l₂ with
    | nil => simp at hlen
    | cons b t2 =>
      cases t with
      | nil =>
        cases t2 with
        | nil =>
          simp only [joinWith] at hj
          rw [hj]
        | cons d t2' => simp at hlen
      | cons c t' =>
        cases t2 with
        | nil => simp at hlen
        | cons d t2' =>
          simp only [joinWith] at hj
          have hd : a.data ++ '\n' :: (joinWith "\n" (c :: t')).data
              = b.data ++ '\n' :: (joinWith "\n" (d :: t2')).data := by
            have h := congrArg String.data hj
            simpa [List.append_assoc] using h
          obtain ⟨hab, hrest⟩ := chunk_eq _ _ _ _ (h1 a (List.mem_cons_self a _))
            (h2 b (List.mem_cons_self b _)) hd
          have hab2 : a = b := String.ext hab
          have ht : c :: t' = d :: t2' :=
            ih (d :: t2') (fun s hs => h1 s (List.mem_cons_of_mem a hs))
              (fun s hs => h2 s (List.mem_cons_of_mem b hs))
              (by simpa using hlen) (String.ext hrest)
          rw [hab2, ht]

/-- Helper: a rendered row starts with its leftmost cell. -/
theorem lineStr_decomp (f y : ℕ) : ∃ rest : List Char,
    (lineStr f y).data = (cellStr f 0 y).data ++ rest := by
  unfold lineStr width
  rw [show (60 : ℕ) = 59 + 1 from rfl, List.range_succ_eq_map, List.map_cons, join_data,
    List.map_cons]
  exact ⟨(List.map String.data (List.map (fun x => cellStr f x y)
    (List.map Nat.succ (List.range 59)))).join, rfl⟩

/-- Helper: the first ten characters of a list starting with the color-escape
prefix and a three-digit channel value. -/
theorem take_prefix_10 (rs rest : List Char) (hlen : rs.length = 3) :
    ((['\x1b', '[', '3', '8', ';', '2', ';'] ++ rs) ++ rest).take 10
      = ['\x1b', '[', '3', '8', ';', '2', ';'] ++ rs := by
  rw [List.take_append_of_le_length (by simp [hlen])]
  rw [show (10 : ℕ) = ((['\x1b', '[', '3', '8', ';', '2', ';'] : List Char) ++ rs).length
    by simp [hlen]]
  exact List.take_length _

/-- Helper: when the leftmost cell of a row is a solid block whose red channel
prints with three digits, the first ten characters of the row are the escape
prefix followed by those digits. -/
theorem lineStr_take10 (f y : ℕ) (r g b : ℤ) (rs : List Char)
    (hc : cellStr f 0 y = color r g b "█") (hr : (toString r).data = rs)
    (hlen : rs.length = 3) :
    (lineStr f y).data.take 10 = ['\x1b', '[', '3', '8', ';', '2', ';'] ++ rs := by
  obtain ⟨rest, hrest⟩ := lineStr_decomp f y
  rw [hrest, hc, color_data, hr,
    show "\x1b[38;2;".data = ['\x1b', '[', '3', '8', ';', '2', ';'] from rfl]
  rw [show (['\x1b', '[', '3', '8', ';', '2', ';'] ++ (rs ++ (";".data ++ ((toString g).data
      ++ (";".data ++ ((toString b).data ++ ("m".data ++ (("█" : String).data
        ++ "\x1b[0m".data)))))))) ++ rest
    = (['\x1b', '[', '3', '8', ';', '2', ';'] ++ rs) ++ ((";".data ++ ((toString g).data
      ++ (";".data ++ ((toString b).data ++ ("m".data ++ (("█" : String).data
        ++ "\x1b[0m".data)))))) ++ rest) by simp [List.append_assoc]]
  exact take_prefix_10 rs _ hlen

/-- Helper: a cell within distance 0.5 of the wave renders as the solid block. -/
theorem cell_solid (f x y : ℕ) (h : distance f x y < 0.5) :
    cellStr f x y
      = color (chan (hue f x) 0 127) (chan (hue f x) 120 127) (chan (hue f x) 240 127) "█" := by
  unfold cellStr cellOfDist
  rw [if_pos h]

/-- Helper: at frame 0, column 0, row 14 lies on the wave. -/
theorem distance_zero_lt : distance 0 0 14 < 0.5 := by
  unfold distance
  rw [waveY_zero_zero]
  norm_num

/-- Helper: the red channel at hue 2 with scale 127 is exactly 131
(`sin 0.0349` lies strictly between `0.0349 - 0.0349³/4` and `0.0349`). -/
theorem chan_two_val : chan 2 0 127 = 131 := by
  unfold chan
  have hθ : (((2 : ℕ) : ℝ) + ((0 : ℕ) : ℝ)) * 0.01745 = 0.0349 := by push_cast; norm_num
  rw [hθ]
  have h1 : Real.sin 0.0349 < 0.0349 := Real.sin_lt (by norm_num)
  have h2 : (0.0349 : ℝ) - 0.0349 ^ 3 / 4 < Real.sin 0.0349 :=
    Real.sin_gt_sub_cube (by norm_num) (by norm_num)
  rw [Int.floor_eq_iff]
  constructor
  · push_cast
    nlinarith
  · push_cast
    nlinarith

/-- Helper: at frame 1, column 0 the wave height lies strictly between 14 and
14.5, so row 14 is again within distance 0.5 of the wave. -/
theorem distance_one_lt : distance 1 0 14 < 0.5 := by
  have hw : 14 < waveY 1 0 ∧ waveY 1 0 < 14.5 := by
    unfold waveY wave1 wave2 wave3 height
    have e0 : (((20 : ℕ) : ℝ)) / 2 = 10 := by push_cast; norm_num
    have e1 : ((0 : ℕ) : ℝ) / 5 + ((1 : ℕ) : ℝ) / 10 = 0.1 := by push_cast; norm_num
    have e2 : ((0 : ℕ) : ℝ) / 3 - ((1 : ℕ) : ℝ) / 15 = -(1 / 15) := by push_cast; norm_num
    have e3 : ((0 : ℕ) : ℝ) / 7 + ((1 : ℕ) : ℝ) / 8 = 0.125 := by push_cast; norm_num
    rw [e0, e1, e2, e3, Real.sin_neg]
    have s1u : Real.sin 0.1 < 0.1 := Real.sin_lt (by norm_num)
    have s1l : (0.1 : ℝ) - 0.1 ^ 3 / 4 < Real.sin 0.1 :=
      Real.sin_gt_sub_cube (by norm_num) (by norm_num)
    have s2u : Real.sin (1 / 15) < 1 / 15 := Real.sin_lt (by norm_num)
    have s2l : (1 / 15 : ℝ) - (1 / 15) ^ 3 / 4 < Real.sin (1 / 15) :=
      Real.sin_gt_sub_cube (by norm_num) (by norm_num)
    have c3u : Real.cos 0.125 ≤ 1 := Real.cos_le_one _
    have c3l : 1 - (0.125 : ℝ) ^ 2 / 2 < Real.cos 0.125 :=
      Real.one_sub_sq_div_two_lt_cos (by norm_num)
    constructor
    · nlinarith
    · nlinarith
  unfold distance
  rw [abs_lt]
  constructor
  · push_cast
    linarith [hw.2]
  · push_cast
    linarith [hw.1]

/-- C9: the animation advances — frame 0 and frame 1 render to different
strings (their row-14 leftmost cells carry red channels 127 and 131). -/
theorem frames_animate : ∃ f : ℕ, draw_wave f ≠ draw_wave (f + 1) := by
  refine ⟨0, fun hEq => ?_⟩
  have hnl0 : ∀ s ∈ waveLines 0, '\n' ∉ s.data := by
    intro s hs
    obtain ⟨y, _, rfl⟩ := List.mem_map.mp hs
    exact line_no_nl 0 y
  have hnl1 : ∀ s ∈ waveLines 1, '\n' ∉ s.data := by
    intro s hs
    obtain ⟨y, _, rfl⟩ := List.mem_map.mp hs
    exact line_no_nl 1 y
  have hlen : (waveLines 0).length = (waveLines 1).length := by
    unfold waveLines
    simp
  have hlines : waveLines 0 = waveLines 1 := joinWith_nl_inj _ _ hnl0 hnl1 hlen hEq
  have h14 : lineStr 0 14 = lineStr 1 14 := by
    have hg : ∀ f : ℕ, (waveLines f)[14]? = some (lineStr f 14) := by
      intro f
      unfold waveLines height
      simp
    have h := congrArg (fun l => l[14]?) hlines
    simp only [hg 0, hg 1, Option.some.injEq] at h
    exact h
  have hc0 : cellStr 0 0 14 = color 127 (chan 0 120 127) (chan 0 240 127) "█" := by
    have h := cell_solid 0 0 14 distance_zero_lt
    rw [show hue 0 0 = 0 from rfl, chan_zero_val] at h
    exact h
  have hc1 : cellStr 1 0 14 = color 131 (chan 2 120 127) (chan 2 240 127) "█" := by
    have h := cell_solid 1 0 14 distance_one_lt
    rw [show hue 1 0 = 2 from rfl, chan_two_val] at h
    exact h
  have t0 := lineStr_take10 0 14 127 (chan 0 120 127) (chan 0 240 127) ['1', '2', '7']
    hc0 (by decide) (by decide)
  have t1 := lineStr_take10 1 14 131 (chan 2 120 127) (chan 2 240 127) ['1', '3', '1']
    hc1 (by decide) (by decide)
  rw [h14] at t0
  rw [t1] at t0
  exact absurd t0 (by decide)

end

end CoolAnimation
